import Mathlib

/-!
Verification of the `dnscache` concurrent DNS cache (`dnscache.go`).

The Go program guards all mutation of `CacheResolver.cache` by a single
mutex, so every lock-held critical section is embedded as a pure function
on an explicit state:

* `LookupAddr`   — the body of `CacheResolver.LookupAddr` (lines 102-128);
* `tryClaim`     — the first locked section of `cacheResolver` (lines 229-247),
  returning the updated cache together with the `skipLookup` flag;
* `commit`       — the second locked section of `cacheResolver` (lines 258-275);
* `sweep` (with `sweepRefresh`/`sweepExpire`) — the locked scan of
  `cachePurger` (lines 181-205);
* `qmRun`        — the `queueManager` select loop (lines 144-166).

The Go map is embedded as an association list with first-match lookup
(`cacheGet`) and in-place update (`cacheSet`); key uniqueness is carried as
an invariant.  `time.Time` values are embedded as `Int` (zero value `0`,
`Before` is `<`); Go's `error` interface is `Option GoError` with `none`
for `nil`; a `[]string` that is Go-`nil` is the empty list.  The goroutine
interleavings are captured by the labelled transition relation `Step` on
`SysState`, whose atomic actions are exactly the critical sections above
plus the channel rendezvous of `requestChan`/`resolverChan`.
-/

namespace DnsCache

/-- Embedded Go `error` values: the `ErrLookupPending` sentinel
(`dnscache.go` line 98) and resolver-produced DNS errors. -/
inductive GoError where
  | errLookupPending : GoError
  | dnsError : String → Bool → GoError
deriving DecidableEq, Repr

/-- `cacheEntryStatus` (lines 51-57): `nonePending` is the zero value. -/
inductive cacheEntryStatus where
  | nonePending : cacheEntryStatus
  | refreshQueued : cacheEntryStatus
  | refreshInProgress : cacheEntryStatus
deriving DecidableEq, Repr

/-- `cacheEntry` (lines 43-49).  `requests` is the per-entry use counter
(the spec's `useCount`); `lastRefresh` is an integer timestamp. -/
structure cacheEntry where
  names : List String
  err : Option GoError
  status : cacheEntryStatus
  requests : Int
  lastRefresh : Int
deriving DecidableEq, Repr

/-- The zero value `&cacheEntry{}` used by the defensive creations. -/
def zeroEntry : cacheEntry :=
  { names := [], err := none, status := .nonePending, requests := 0, lastRefresh := 0 }

/-- Go map read `cr.cache[addr]`: first entry with the given key. -/
def cacheGet : List (String × cacheEntry) → String → Option cacheEntry
  | [], _ => none
  | (k, v) :: rest, a => if k = a then some v else cacheGet rest a

/-- Go map write `cr.cache[addr] = ent`: replace the first entry with the
given key, or append a fresh one. -/
def cacheSet : List (String × cacheEntry) → String → cacheEntry → List (String × cacheEntry)
  | [], a, v => [(a, v)]
  | (k, w) :: rest, a, v => if k = a then (a, v) :: rest else (k, w) :: cacheSet rest a v

/-- The lock-protected mutable state of `CacheResolver` that the claims
mention: the cache map, the dispatcher queue (the `queueManager`'s slice,
fed by `requestChan`), and the hit/miss counters. -/
structure CRState where
  cache : List (String × cacheEntry)
  queue : List String
  hits : Nat
  misses : Nat
deriving DecidableEq, Repr

/-- The entry created by a miss (lines 110-113): zero-valued except for
`status = refreshQueued` and `err = ErrLookupPending`. -/
def pendingEntry : cacheEntry :=
  { names := [], err := some GoError.errLookupPending,
    status := .refreshQueued, requests := 0, lastRefresh := 0 }

/-- `CacheResolver.LookupAddr` (lines 102-128): on a miss it creates a
`refreshQueued` entry with the pending sentinel and sends the key to
`requestChan` (appending it to the dispatcher queue); then it counts a hit
iff the entry's status is `nonePending` and returns the entry's data. -/
def LookupAddr (s : CRState) (addr : String) : (List String × Option GoError) × CRState :=
  let (ent, s1) :=
    match cacheGet s.cache addr with
    | some e => (e, s)
    | none =>
        (pendingEntry,
          { s with cache := cacheSet s.cache addr pendingEntry, queue := s.queue ++ [addr] })
  let s2 :=
    if ent.status = cacheEntryStatus.nonePending then
      { s1 with hits := s1.hits + 1 }
    else
      { s1 with misses := s1.misses + 1 }
  ((ent.names, ent.err), s2)

/-- First locked section of `cacheResolver` (lines 229-247): defensively
create a zero entry when absent, then claim the entry iff its status is
`refreshQueued`.  The returned flag is `skipLookup`. -/
def tryClaim (c : List (String × cacheEntry)) (addr : String) :
    List (String × cacheEntry) × Bool :=
  match cacheGet c addr with
  | none => (cacheSet c addr zeroEntry, true)
  | some ent =>
      if ent.status = cacheEntryStatus.refreshQueued then
        (cacheSet c addr { ent with status := .refreshInProgress }, false)
      else
        (c, true)

/-- Second locked section of `cacheResolver` (lines 258-275): defensively
create the entry when absent, then overwrite names, err, lastRefresh,
status (to `nonePending`) and requests (to `0`). -/
def commit (c : List (String × cacheEntry)) (addr : String)
    (names : List String) (err : Option GoError) (now : Int) :
    List (String × cacheEntry) :=
  let c1 :=
    match cacheGet c addr with
    | none => cacheSet c addr zeroEntry
    | some _ => c
  let ent := (cacheGet c1 addr).getD zeroEntry
  cacheSet c1 addr
    { ent with names := names, err := err, lastRefresh := now,
               status := .nonePending, requests := 0 }

/-- The purge condition of `cachePurger` line 191:
`status == nonePending && lastRefresh.Before(purgeCutoff)`. -/
def isPurgeReady (e : cacheEntry) (cutoff : Int) : Bool :=
  decide (e.status = cacheEntryStatus.nonePending) && decide (e.lastRefresh < cutoff)

/-- An entry takes `cachePurger`'s expire branch (lines 194-197) iff it is
purge-ready and `requests > 1` fails; such an entry is flipped to
`refreshQueued` and then deleted. -/
def sweepFlag (e : cacheEntry) (cutoff : Int) : Bool :=
  isPurgeReady e cutoff && !(decide (e.requests > 1))

/-- The `cacheRefresh` list collected by the sweep (line 193). -/
def sweepRefresh (c : List (String × cacheEntry)) (cutoff : Int) : List String :=
  (c.filter fun p => isPurgeReady p.2 cutoff && decide (p.2.requests > 1)).map Prod.fst

/-- The `cacheExpire` list collected by the sweep (line 195). -/
def sweepExpire (c : List (String × cacheEntry)) (cutoff : Int) : List String :=
  (c.filter fun p => sweepFlag p.2 cutoff).map Prod.fst

/-- Pointwise effect of the scan on one entry: the expire branch flips the
status to `refreshQueued` (line 196), every other entry is untouched. -/
def markEntry (e : cacheEntry) (cutoff : Int) : cacheEntry :=
  if sweepFlag e cutoff then { e with status := .refreshQueued } else e

/-- The in-scan status flip of line 196, applied to every entry. -/
def sweepMark (c : List (String × cacheEntry)) (cutoff : Int) :
    List (String × cacheEntry) :=
  c.map fun p => (p.1, markEntry p.2 cutoff)

/-- The whole locked section of `cachePurger` (lines 181-205): flip the
expire-branch entries, then delete every key on the expire list. -/
def sweep (c : List (String × cacheEntry)) (cutoff : Int) :
    List (String × cacheEntry) :=
  (sweepMark c cutoff).filter fun p => !(sweepExpire c cutoff).contains p.1

/-! ### The `queueManager` select loop (lines 144-166)

Each loop iteration of `queueManager` services exactly one of three
communication events; `rc` is left `nil` while the queue is empty, so the
dequeue case is offered only when the queue is non-empty.  A trace of the
manager is a list of serviced events. -/

/-- One serviced `select` case of `queueManager`. -/
inductive QEvent where
  | querySize : QEvent
  | dequeue : QEvent
  | enqueue : String → QEvent
deriving DecidableEq, Repr

/-- Run `queueManager` from queue `q` over a trace, returning the final
queue and the keys handed to workers, in order.  A size query leaves the
queue alone; a dequeue yields `queue[0]` and keeps `queue[1:]`; an enqueue
appends.  (A dequeue on an empty queue cannot be serviced — see
`validTrace`; the `[]` case here is dead.) -/
def qmRun : List String → List QEvent → List String × List String
  | q, [] => (q, [])
  | q, ev :: rest =>
      match ev with
      | QEvent.querySize => qmRun q rest
      | QEvent.enqueue a => qmRun (q ++ [a]) rest
      | QEvent.dequeue =>
          match q with
          | [] => qmRun [] rest
          | a :: tl => ((qmRun tl rest).1, a :: (qmRun tl rest).2)

/-- A trace is valid from queue `q` iff every dequeue is serviced while
the queue is non-empty (the `rc = nil` guard of lines 150-155). -/
def validTrace : List String → List QEvent → Bool
  | _, [] => true
  | q, ev :: rest =>
      match ev with
      | QEvent.querySize => validTrace q rest
      | QEvent.enqueue a => validTrace (q ++ [a]) rest
      | QEvent.dequeue =>
          match q with
          | [] => false
          | _ :: tl => validTrace tl rest

/-- The keys enqueued by a trace, in arrival order. -/
def enqueuedOf (evs : List QEvent) : List String :=
  evs.filterMap fun e =>
    match e with
    | QEvent.enqueue a => some a
    | _ => none

/-- Recognize a dequeue event. -/
def isDequeue : QEvent → Bool
  | QEvent.dequeue => true
  | _ => false

/-- Number of dequeues serviced by a trace. -/
def deqCount (evs : List QEvent) : Nat :=
  (evs.filter isDequeue).length

/-! ### The concurrent system

One state for the whole process: the lock-protected `CRState`, the
purger's `cacheRefresh` list that is still to be sent to `requestChan`
(lines 207-210 run outside the lock, one send at a time), and the local
state of each of the `n` resolver workers.  Each `Step` is one atomic
event: a lock-held critical section or a channel rendezvous. -/

/-- Local state of one `cacheResolver` goroutine: blocked on
`resolverChan` (`idle`), holding a dequeued key before the claim section
(`pending`), or mid-resolution after a successful claim (`holding`). -/
inductive WStatus where
  | idle : WStatus
  | pending : String → WStatus
  | holding : String → WStatus
deriving DecidableEq, Repr

/-- Global state: shared `CRState`, the purger's pending refresh sends,
and the worker pool. -/
structure SysState (n : Nat) where
  cr : CRState
  pendRefresh : List String
  workers : Fin n → WStatus

/-- State after `Start()`: empty cache and queue, all workers blocked. -/
def initState (n : Nat) : SysState n :=
  { cr := { cache := [], queue := [], hits := 0, misses := 0 },
    pendRefresh := [], workers := fun _ => WStatus.idle }

/-- Atomic events of the system.

* `lookup` — one `LookupAddr` call (its critical section plus, on a miss,
  the `requestChan` send that the `queueManager` turns into an append);
* `sweepRun` — the purger's locked scan (lines 181-205), recording the
  `cacheRefresh` list for later sends; a new cycle starts only after the
  previous refresh list was fully sent (the purger is one goroutine);
* `purgeEnq` — one `requestChan` send of line 209;
* `dequeue` — the `resolverChan` rendezvous handing `queue[0]` to an idle
  worker (lines 152-161 and 225);
* `claim` — the worker's first locked section (lines 229-247); on
  `skipLookup` the worker `continue`s back to idle;
* `commitRun` — `net.LookupAddr` returning `(names, err)` followed by the
  worker's second locked section (lines 258-275). -/
inductive Step : {n : Nat} → SysState n → SysState n → Prop where
  | lookup {n} (s : SysState n) (addr : String) :
      Step s { s with cr := (LookupAddr s.cr addr).2 }
  | sweepRun {n} (s : SysState n) (cutoff : Int) (hp : s.pendRefresh = []) :
      Step s { s with cr := { s.cr with cache := sweep s.cr.cache cutoff },
                      pendRefresh := sweepRefresh s.cr.cache cutoff }
  | purgeEnq {n} (s : SysState n) (a : String) (rest : List String)
      (hp : s.pendRefresh = a :: rest) :
      Step s { s with cr := { s.cr with queue := s.cr.queue ++ [a] },
                      pendRefresh := rest }
  | dequeue {n} (s : SysState n) (w : Fin n) (a : String) (rest : List String)
      (hq : s.cr.queue = a :: rest) (hw : s.workers w = WStatus.idle) :
      Step s { s with cr := { s.cr with queue := rest },
                      workers := Function.update s.workers w (WStatus.pending a) }
  | claim {n} (s : SysState n) (w : Fin n) (a : String)
      (hw : s.workers w = WStatus.pending a) :
      Step s { s with cr := { s.cr with cache := (tryClaim s.cr.cache a).1 },
                      workers := Function.update s.workers w
                        (if (tryClaim s.cr.cache a).2 then WStatus.idle
                         else WStatus.holding a) }
  | commitRun {n} (s : SysState n) (w : Fin n) (a : String) (names : List String)
      (err : Option GoError) (now : Int) (hw : s.workers w = WStatus.holding a) :
      Step s { s with cr := { s.cr with cache := commit s.cr.cache a names err now },
                      workers := Function.update s.workers w WStatus.idle }

/-- States reachable from the started system. -/
inductive Reachable {n : Nat} : SysState n → Prop where
  | init : Reachable (initState n)
  | step {s s' : SysState n} : Reachable s → Step s s' → Reachable s'

/-- Number of workers currently mid-resolution on key `a`. -/
def holdersCount {n : Nat} (s : SysState n) (a : String) : Nat :=
  (Finset.univ.filter fun w => s.workers w = WStatus.holding a).card

/-- The status changes a single atomic event may apply to one entry:
stay put, or follow the cycle
Idle → RefreshQueued → RefreshInProgress → Idle. -/
def allowedTransition (x y : cacheEntryStatus) : Prop :=
  x = y
  ∨ (x = cacheEntryStatus.nonePending ∧ y = cacheEntryStatus.refreshQueued)
  ∨ (x = cacheEntryStatus.refreshQueued ∧ y = cacheEntryStatus.refreshInProgress)
  ∨ (x = cacheEntryStatus.refreshInProgress ∧ y = cacheEntryStatus.nonePending)

/-- Inductive invariant of the reachable states. -/
structure SysInv {n : Nat} (s : SysState n) : Prop where
  /-- The Go map has unique keys. -/
  keysNodup : (s.cr.cache.map Prod.fst).Nodup
  /-- A mid-resolution worker's key is present with status in-progress. -/
  holdInProg : ∀ (w : Fin n) (a : String), s.workers w = WStatus.holding a →
    ∃ e, cacheGet s.cr.cache a = some e ∧ e.status = cacheEntryStatus.refreshInProgress
  /-- No two workers are mid-resolution on the same key. -/
  holdUnique : ∀ (w1 w2 : Fin n) (a : String), s.workers w1 = WStatus.holding a →
    s.workers w2 = WStatus.holding a → w1 = w2
  /-- `requests` is never incremented anywhere in the program. -/
  reqZero : ∀ p ∈ s.cr.cache, (Prod.snd p).requests = 0
  /-- The purger never has sends outstanding (its refresh list is empty). -/
  pendNil : s.pendRefresh = []
  /-- The dispatcher queue never holds a key twice. -/
  queueNodup : s.cr.queue.Nodup
  /-- No two workers hold the same dequeued key. -/
  pendUnique : ∀ (w1 w2 : Fin n) (a : String), s.workers w1 = WStatus.pending a →
    s.workers w2 = WStatus.pending a → w1 = w2
  /-- A dequeued-but-unclaimed key is no longer in the queue. -/
  pendNotQueued : ∀ (a : String) (w : Fin n), s.workers w = WStatus.pending a →
    a ∉ s.cr.queue
  /-- A queued or dequeued-but-unclaimed key has a `refreshQueued` entry. -/
  queuedStatus : ∀ a : String,
    (a ∈ s.cr.queue ∨ ∃ w : Fin n, s.workers w = WStatus.pending a) →
    ∃ e, cacheGet s.cr.cache a = some e ∧ e.status = cacheEntryStatus.refreshQueued

/-! ### Association-list lemmas -/

theorem cacheGet_cacheSet_self (c : List (String × cacheEntry)) (a : String) (v : cacheEntry) :
    cacheGet (cacheSet c a v) a = some v := by
  induction c with
  | nil => simp [cacheGet, cacheSet]
  | cons p rest ih =>
      by_cases h : p.1 = a
      · simp [cacheGet, cacheSet, h]
      · simp [cacheGet, cacheSet, h, ih]

theorem cacheGet_cacheSet_ne (c : List (String × cacheEntry)) (a b : String) (v : cacheEntry)
    (h : a ≠ b) : cacheGet (cacheSet c a v) b = cacheGet c b := by
  induction c with
  | nil => simp [cacheGet, cacheSet, h]
  | cons p rest ih =>
      by_cases hp : p.1 = a
      · simp [cacheGet, cacheSet, hp, h]
      · by_cases hb : p.1 = b
        · simp [cacheGet, cacheSet, hp, hb, Ne.symm h]
        · simp [cacheGet, cacheSet, hp, hb, ih]

theorem length_cacheSet_of_none (c : List (String × cacheEntry)) (a : String) (v : cacheEntry)
    (h : cacheGet c a = none) : (cacheSet c a v).length = c.length + 1 := by
  induction c with
  | nil => simp [cacheSet]
  | cons p rest ih =>
      by_cases hp : p.1 = a
      · simp [cacheGet, hp] at h
      · simp [cacheGet, hp] at h
        simp [cacheSet, hp, ih h]

theorem length_cacheSet_of_some (c : List (String × cacheEntry)) (a : String)
    (v e : cacheEntry) (h : cacheGet c a = some e) :
    (cacheSet c a v).length = c.length := by
  induction c with
  | nil => simp [cacheGet] at h
  | cons p rest ih =>
      by_cases hp : p.1 = a
      · simp [cacheSet, hp]
      · simp [cacheGet, hp] at h
        simp [cacheSet, hp, ih h]

theorem mem_of_cacheGet (c : List (String × cacheEntry)) (a : String) (e : cacheEntry)
    (h : cacheGet c a = some e) : (a, e) ∈ c := by
  induction c with
  | nil => simp [cacheGet] at h
  | cons p rest ih =>
      obtain ⟨k, w⟩ := p
      by_cases hp : k = a
      · subst hp
        simp [cacheGet] at h
        simp [h]
      · simp [cacheGet, hp] at h
        exact List.mem_cons_of_mem _ (ih h)

theorem cacheGet_of_mem_nodup (c : List (String × cacheEntry)) (a : String) (e : cacheEntry)
    (hnd : (c.map Prod.fst).Nodup) (h : (a, e) ∈ c) : cacheGet c a = some e := by
  induction c with
  | nil => simp at h
  | cons p rest ih =>
      simp only [List.map_cons, List.nodup_cons] at hnd
      rcases List.mem_cons.mp h with h1 | h1
      · subst h1
        simp [cacheGet]
      · have hne : p.1 ≠ a := by
          intro hcontra
          exact hnd.1 (hcontra ▸ (List.mem_map_of_mem Prod.fst h1))
        simp [cacheGet, hne, ih hnd.2 h1]

theorem mem_cacheSet (c : List (String × cacheEntry)) (a : String) (v : cacheEntry)
    (p : String × cacheEntry) (h : p ∈ cacheSet c a v) : p ∈ c ∨ p = (a, v) := by
  induction c with
  | nil => simp [cacheSet] at h; right; exact h
  | cons q rest ih =>
      by_cases hq : q.1 = a
      · simp [cacheSet, hq] at h
        rcases h with h | h
        · right; simp [h]
        · left; exact List.mem_cons_of_mem _ h
      · simp [cacheSet, hq] at h
        rcases h with h | h
        · left; simp [h]
        · rcases ih h with h1 | h1
          · left; exact List.mem_cons_of_mem _ h1
          · right; exact h1

theorem keys_nodup_cacheSet (c : List (String × cacheEntry)) (a : String) (v : cacheEntry)
    (hnd : (c.map Prod.fst).Nodup) : ((cacheSet c a v).map Prod.fst).Nodup := by
  induction c with
  | nil => simp [cacheSet]
  | cons p rest ih =>
      obtain ⟨k, w⟩ := p
      simp only [List.map_cons, List.nodup_cons] at hnd
      by_cases hp : k = a
      · subst hp
        have hset : cacheSet ((k, w) :: rest) k v = (k, v) :: rest := by
          simp [cacheSet]
        rw [hset]
        simp only [List.map_cons, List.nodup_cons]
        exact ⟨hnd.1, hnd.2⟩
      · simp only [cacheSet, if_neg hp, List.map_cons, List.nodup_cons]
        refine ⟨?_, ih hnd.2⟩
        intro hmem
        rcases List.mem_map.mp hmem with ⟨q, hq, hq1⟩
        rcases mem_cacheSet rest a v q hq with h1 | h1
        · exact hnd.1 (hq1 ▸ List.mem_map_of_mem Prod.fst h1)
        · apply hp
          rw [h1] at hq1
          exact hq1.symm

/-! ### Sweep lemmas -/

theorem sweepFlag_status (e : cacheEntry) (cutoff : Int) (h : sweepFlag e cutoff = true) :
    e.status = cacheEntryStatus.nonePending := by
  simp [sweepFlag, isPurgeReady] at h
  exact h.1.1

theorem markEntry_requests (e : cacheEntry) (cutoff : Int) :
    (markEntry e cutoff).requests = e.requests := by
  unfold markEntry
  by_cases h : sweepFlag e cutoff <;> simp [h]

theorem markEntry_of_flag_false (e : cacheEntry) (cutoff : Int)
    (h : sweepFlag e cutoff = false) : markEntry e cutoff = e := by
  simp [markEntry, h]

theorem cacheGet_sweepMark (c : List (String × cacheEntry)) (cutoff : Int) (a : String) :
    cacheGet (sweepMark c cutoff) a = (cacheGet c a).map (fun e => markEntry e cutoff) := by
  induction c with
  | nil => simp [sweepMark, cacheGet]
  | cons p rest ih =>
      obtain ⟨k, w⟩ := p
      by_cases hk : k = a
      · subst hk
        simp [sweepMark, cacheGet]
      · simpa [sweepMark, cacheGet, hk] using ih

theorem cacheGet_filterKey (c : List (String × cacheEntry)) (P : String → Bool) (a : String) :
    cacheGet (c.filter fun p => P p.1) a = if P a then cacheGet c a else none := by
  induction c with
  | nil => simp [cacheGet]
  | cons p rest ih =>
      obtain ⟨k, w⟩ := p
      by_cases hk : k = a
      · subst hk
        by_cases hP : P k <;> simp [cacheGet, hP, ih]
      · by_cases hP : P k <;> simp [cacheGet, hk, hP, ih]

theorem keys_sweepMark (c : List (String × cacheEntry)) (cutoff : Int) :
    (sweepMark c cutoff).map Prod.fst = c.map Prod.fst := by
  simp [sweepMark]

theorem keys_nodup_sweep (c : List (String × cacheEntry)) (cutoff : Int)
    (hnd : (c.map Prod.fst).Nodup) : ((sweep c cutoff).map Prod.fst).Nodup := by
  have hsub : List.Sublist ((sweep c cutoff).map Prod.fst)
      ((sweepMark c cutoff).map Prod.fst) :=
    List.Sublist.map Prod.fst (List.filter_sublist _)
  rw [keys_sweepMark] at hsub
  exact hnd.sublist hsub

theorem mem_sweepExpire (c : List (String × cacheEntry)) (cutoff : Int) (a : String) :
    a ∈ sweepExpire c cutoff ↔ ∃ e, (a, e) ∈ c ∧ sweepFlag e cutoff = true := by
  constructor
  · intro h
    rcases List.mem_map.mp h with ⟨p, hp, hp1⟩
    rcases List.mem_filter.mp hp with ⟨hpc, hflag⟩
    exact ⟨p.2, by rw [← hp1]; exact hpc, hflag⟩
  · rintro ⟨e, hmem, hflag⟩
    exact List.mem_map.mpr ⟨(a, e), List.mem_filter.mpr ⟨hmem, hflag⟩, rfl⟩

theorem cacheGet_sweep (c : List (String × cacheEntry)) (cutoff : Int) (a : String) :
    cacheGet (sweep c cutoff) a =
      if a ∈ sweepExpire c cutoff then none
      else (cacheGet c a).map (fun e => markEntry e cutoff) := by
  unfold sweep
  rw [cacheGet_filterKey (sweepMark c cutoff) (fun k => !(sweepExpire c cutoff).contains k) a]
  by_cases h : a ∈ sweepExpire c cutoff
  · simp [h, List.contains, List.elem_eq_mem]
  · simp [h, List.contains, List.elem_eq_mem, cacheGet_sweepMark]

theorem cacheGet_sweep_of_not_idle (c : List (String × cacheEntry)) (cutoff : Int)
    (a : String) (e : cacheEntry) (hnd : (c.map Prod.fst).Nodup)
    (hget : cacheGet c a = some e) (hst : e.status ≠ cacheEntryStatus.nonePending) :
    cacheGet (sweep c cutoff) a = some e := by
  have hflag : sweepFlag e cutoff = false := by
    cases hf : sweepFlag e cutoff
    · rfl
    · exact absurd (sweepFlag_status e cutoff hf) hst
  have hnotin : a ∉ sweepExpire c cutoff := by
    intro hmem
    rcases (mem_sweepExpire c cutoff a).mp hmem with ⟨e1, hmem1, hflag1⟩
    have := cacheGet_of_mem_nodup c a e1 hnd hmem1
    rw [hget] at this
    cases this
    rw [hflag] at hflag1
    exact Bool.false_ne_true hflag1
  rw [cacheGet_sweep, if_neg hnotin, hget]
  simp [markEntry_of_flag_false e cutoff hflag]

theorem requests_sweep (c : List (String × cacheEntry)) (cutoff : Int)
    (h : ∀ p ∈ c, (Prod.snd p).requests = 0) :
    ∀ p ∈ sweep c cutoff, (Prod.snd p).requests = 0 := by
  intro p hp
  have hp1 : p ∈ sweepMark c cutoff := List.mem_of_mem_filter hp
  rcases List.mem_map.mp hp1 with ⟨q, hq, hq1⟩
  rw [← hq1]
  simpa [markEntry_requests] using h q hq

theorem sweepRefresh_eq_nil (c : List (String × cacheEntry)) (cutoff : Int)
    (h : ∀ p ∈ c, (Prod.snd p).requests = 0) : sweepRefresh c cutoff = [] := by
  unfold sweepRefresh
  rw [List.map_eq_nil_iff, List.filter_eq_nil_iff]
  intro p hp
  simp [h p hp, isPurgeReady]

/-! ### Characterizations of the critical sections -/

theorem LookupAddr_of_get (s : CRState) (addr : String) (e : cacheEntry)
    (h : cacheGet s.cache addr = some e) :
    LookupAddr s addr = ((e.names, e.err),
      if e.status = cacheEntryStatus.nonePending then { s with hits := s.hits + 1 }
      else { s with misses := s.misses + 1 }) := by
  simp [LookupAddr, h]

theorem LookupAddr_of_none (s : CRState) (addr : String)
    (h : cacheGet s.cache addr = none) :
    LookupAddr s addr = (([], some GoError.errLookupPending),
      { s with cache := cacheSet s.cache addr pendingEntry,
               queue := s.queue ++ [addr], misses := s.misses + 1 }) := by
  simp [LookupAddr, h, pendingEntry]

theorem tryClaim_of_none (c : List (String × cacheEntry)) (addr : String)
    (h : cacheGet c addr = none) :
    tryClaim c addr = (cacheSet c addr zeroEntry, true) := by
  simp [tryClaim, h]

theorem tryClaim_of_queued (c : List (String × cacheEntry)) (addr : String) (e : cacheEntry)
    (h : cacheGet c addr = some e) (hst : e.status = cacheEntryStatus.refreshQueued) :
    tryClaim c addr = (cacheSet c addr { e with status := .refreshInProgress }, false) := by
  simp [tryClaim, h, hst]

theorem tryClaim_of_other (c : List (String × cacheEntry)) (addr : String) (e : cacheEntry)
    (h : cacheGet c addr = some e) (hst : e.status ≠ cacheEntryStatus.refreshQueued) :
    tryClaim c addr = (c, true) := by
  simp [tryClaim, h, hst]

theorem cacheGet_commit_self (c : List (String × cacheEntry)) (addr : String)
    (names : List String) (err : Option GoError) (now : Int) :
    cacheGet (commit c addr names err now) addr =
      some { names := names, err := err, status := .nonePending,
             requests := 0, lastRefresh := now } := by
  unfold commit
  cases h : cacheGet c addr with
  | none => simp [h, cacheGet_cacheSet_self, zeroEntry]
  | some e => simp [h, cacheGet_cacheSet_self]

theorem cacheGet_commit_ne (c : List (String × cacheEntry)) (addr b : String)
    (names : List String) (err : Option GoError) (now : Int) (h : b ≠ addr) :
    cacheGet (commit c addr names err now) b = cacheGet c b := by
  unfold commit
  cases hg : cacheGet c addr with
  | none => simp [hg, cacheGet_cacheSet_ne _ _ _ _ (Ne.symm h)]
  | some e => simp [hg, cacheGet_cacheSet_ne _ _ _ _ (Ne.symm h)]

theorem length_commit (c : List (String × cacheEntry)) (addr : String)
    (names : List String) (err : Option GoError) (now : Int) :
    (commit c addr names err now).length =
      if (cacheGet c addr).isSome then c.length else c.length + 1 := by
  unfold commit
  cases hg : cacheGet c addr with
  | none =>
      simp only [hg, Option.isSome_none, Bool.false_eq_true, if_false]
      rw [length_cacheSet_of_some _ _ _ zeroEntry (cacheGet_cacheSet_self c addr zeroEntry),
        length_cacheSet_of_none c addr zeroEntry hg]
  | some e =>
      simp only [hg, Option.isSome_some, if_true]
      exact length_cacheSet_of_some _ _ _ _ hg

theorem keys_nodup_commit (c : List (String × cacheEntry)) (addr : String)
    (names : List String) (err : Option GoError) (now : Int)
    (hnd : (c.map Prod.fst).Nodup) :
    ((commit c addr names err now).map Prod.fst).Nodup := by
  unfold commit
  cases hg : cacheGet c addr with
  | none => exact keys_nodup_cacheSet _ _ _ (keys_nodup_cacheSet _ _ _ hnd)
  | some e => exact keys_nodup_cacheSet _ _ _ hnd

theorem requests_commit (c : List (String × cacheEntry)) (addr : String)
    (names : List String) (err : Option GoError) (now : Int)
    (h : ∀ p ∈ c, (Prod.snd p).requests = 0) :
    ∀ p ∈ commit c addr names err now, (Prod.snd p).requests = 0 := by
  unfold commit
  intro p hp
  cases hg : cacheGet c addr with
  | none =>
      rw [hg] at hp
      rcases mem_cacheSet _ _ _ _ hp with h1 | h1
      · rcases mem_cacheSet _ _ _ _ h1 with h2 | h2
        · exact h p h2
        · rw [h2]; rfl
      · rw [h1]
  | some e =>
      rw [hg] at hp
      rcases mem_cacheSet _ _ _ _ hp with h1 | h1
      · exact h p h1
      · rw [h1]

/-! ### Functional claims about single operations -/

/-- Claim C5: for every key not present in the store, `LookupAddr` of that
key returns `(nil, ErrLookupPending)`, creates an entry with status
`refreshQueued` and err set to the pending sentinel, increases the store's
size by exactly 1 and the `misses` counter by exactly 1 (and leaves `hits`
alone). -/
theorem c5_fresh_key_lookup (s : CRState) (addr : String)
    (h : cacheGet s.cache addr = none) :
    (LookupAddr s addr).1 = ([], some GoError.errLookupPending)
    ∧ cacheGet (LookupAddr s addr).2.cache addr =
        some { names := [], err := some GoError.errLookupPending,
               status := cacheEntryStatus.refreshQueued, requests := 0, lastRefresh := 0 }
    ∧ (LookupAddr s addr).2.cache.length = s.cache.length + 1
    ∧ (LookupAddr s addr).2.misses = s.misses + 1
    ∧ (LookupAddr s addr).2.hits = s.hits := by
  rw [LookupAddr_of_none s addr h]
  exact ⟨rfl, cacheGet_cacheSet_self s.cache addr pendingEntry,
    length_cacheSet_of_none s.cache addr pendingEntry h, rfl, rfl⟩

/-- Witness for C5 at the freshly started state and key `"a"`. -/
theorem c5_fresh_key_lookup_witness :
    cacheGet ({ cache := [], queue := [], hits := 0, misses := 0 } : CRState).cache "a" = none
    ∧ ((LookupAddr { cache := [], queue := [], hits := 0, misses := 0 } "a").1
          = ([], some GoError.errLookupPending)
      ∧ cacheGet (LookupAddr { cache := [], queue := [], hits := 0, misses := 0 } "a").2.cache "a" =
          some { names := [], err := some GoError.errLookupPending,
                 status := cacheEntryStatus.refreshQueued, requests := 0, lastRefresh := 0 }
      ∧ (LookupAddr { cache := [], queue := [], hits := 0, misses := 0 } "a").2.cache.length
          = ({ cache := [], queue := [], hits := 0, misses := 0 } : CRState).cache.length + 1
      ∧ (LookupAddr { cache := [], queue := [], hits := 0, misses := 0 } "a").2.misses
          = ({ cache := [], queue := [], hits := 0, misses := 0 } : CRState).misses + 1
      ∧ (LookupAddr { cache := [], queue := [], hits := 0, misses := 0 } "a").2.hits
          = ({ cache := [], queue := [], hits := 0, misses := 0 } : CRState).hits) :=
  ⟨rfl, c5_fresh_key_lookup { cache := [], queue := [], hits := 0, misses := 0 } "a" rfl⟩

/-- Claim C6: for every key and every resolution outcome `(names, err)`,
the commit step writes exactly `names`, `err`, `lastRefresh = now`,
status `nonePending` (Idle) and `requests = 0` into that entry, creating
it first when absent (the store grows by one exactly in that case). -/
theorem c6_commit_overwrites (c : List (String × cacheEntry)) (k : String)
    (names : List String) (err : Option GoError) (now : Int) :
    cacheGet (commit c k names err now) k =
      some { names := names, err := err, status := cacheEntryStatus.nonePending,
             requests := 0, lastRefresh := now }
    ∧ (commit c k names err now).length =
        (if (cacheGet c k).isSome then c.length else c.length + 1) :=
  ⟨cacheGet_commit_self c k names err now, length_commit c k names err now⟩

/-- Claim C7: after a commit of `(names, err)` for key `k` — errors
included, verbatim — a `LookupAddr` of `k` returns exactly the committed
pair, increments `hits` (not `misses`), and leaves the cache and queue
untouched, so every further lookup keeps returning the same pair until
some later commit changes the entry. -/
theorem c7_committed_hit (s : CRState) (k : String) (names : List String)
    (err : Option GoError) (now : Int) :
    (LookupAddr { s with cache := commit s.cache k names err now } k).1 = (names, err)
    ∧ (LookupAddr { s with cache := commit s.cache k names err now } k).2.hits = s.hits + 1
    ∧ (LookupAddr { s with cache := commit s.cache k names err now } k).2.misses = s.misses
    ∧ (LookupAddr { s with cache := commit s.cache k names err now } k).2.cache
        = commit s.cache k names err now
    ∧ (LookupAddr { s with cache := commit s.cache k names err now } k).2.queue = s.queue := by
  have hg : cacheGet ({ s with cache := commit s.cache k names err now } : CRState).cache k =
      some { names := names, err := err, status := cacheEntryStatus.nonePending,
             requests := 0, lastRefresh := now } :=
    cacheGet_commit_self s.cache k names err now
  rw [LookupAddr_of_get _ k _ hg]
  exact ⟨rfl, rfl, rfl, rfl, rfl⟩

/-- Claim C9: a commit for key `k` never modifies any other key's entry. -/
theorem c9_commit_frame (c : List (String × cacheEntry)) (k : String)
    (names : List String) (err : Option GoError) (now : Int) (a : String)
    (h : a ≠ k) :
    cacheGet (commit c k names err now) a = cacheGet c a :=
  cacheGet_commit_ne c k a names err now h

/-- Witness for C9: committing `"a"` leaves `"b"` untouched. -/
theorem c9_commit_frame_witness :
    ("b" : String) ≠ "a"
    ∧ cacheGet (commit [] "a" ["x"] none 7) "b" = cacheGet [] "b" :=
  ⟨by decide, c9_commit_frame [] "a" ["x"] none 7 "b" (by decide)⟩

/-- Claim C10: a worker that dequeues a key with no entry creates the
zero-valued entry (status Idle, names nil, err nil, lastRefresh zero) and
skips the resolution call (`skipLookup` stays `true`); a following
`LookupAddr` of that key returns `(nil, nil)` and counts as a hit even
though the key was never resolved. -/
theorem c10_expunged_key (s : CRState) (k : String)
    (h : cacheGet s.cache k = none) :
    (tryClaim s.cache k).2 = true
    ∧ cacheGet (tryClaim s.cache k).1 k =
        some { names := [], err := none, status := cacheEntryStatus.nonePending,
               requests := 0, lastRefresh := 0 }
    ∧ (LookupAddr { s with cache := (tryClaim s.cache k).1 } k).1 = ([], none)
    ∧ (LookupAddr { s with cache := (tryClaim s.cache k).1 } k).2.hits = s.hits + 1
    ∧ (LookupAddr { s with cache := (tryClaim s.cache k).1 } k).2.misses = s.misses := by
  rw [tryClaim_of_none s.cache k h]
  have hg : cacheGet ({ s with cache := cacheSet s.cache k zeroEntry } : CRState).cache k =
      some zeroEntry := cacheGet_cacheSet_self s.cache k zeroEntry
  rw [LookupAddr_of_get _ k zeroEntry hg]
  exact ⟨rfl, cacheGet_cacheSet_self s.cache k zeroEntry, rfl, rfl, rfl⟩

/-- Witness for C10 at the empty store and key `"k"`. -/
theorem c10_expunged_key_witness :
    cacheGet ({ cache := [], queue := [], hits := 3, misses := 4 } : CRState).cache "k" = none
    ∧ ((tryClaim ({ cache := [], queue := [], hits := 3, misses := 4 } : CRState).cache "k").2 = true
      ∧ cacheGet (tryClaim ({ cache := [], queue := [], hits := 3, misses := 4 } : CRState).cache "k").1 "k" =
          some { names := [], err := none, status := cacheEntryStatus.nonePending,
                 requests := 0, lastRefresh := 0 }
      ∧ (LookupAddr { ({ cache := [], queue := [], hits := 3, misses := 4 } : CRState) with
            cache := (tryClaim ({ cache := [], queue := [], hits := 3, misses := 4 } : CRState).cache "k").1 } "k").1
          = ([], none)
      ∧ (LookupAddr { ({ cache := [], queue := [], hits := 3, misses := 4 } : CRState) with
            cache := (tryClaim ({ cache := [], queue := [], hits := 3, misses := 4 } : CRState).cache "k").1 } "k").2.hits
          = ({ cache := [], queue := [], hits := 3, misses := 4 } : CRState).hits + 1
      ∧ (LookupAddr { ({ cache := [], queue := [], hits := 3, misses := 4 } : CRState) with
            cache := (tryClaim ({ cache := [], queue := [], hits := 3, misses := 4 } : CRState).cache "k").1 } "k").2.misses
          = ({ cache := [], queue := [], hits := 3, misses := 4 } : CRState).misses) :=
  ⟨rfl, c10_expunged_key { cache := [], queue := [], hits := 3, misses := 4 } "k" rfl⟩

/-! ### The sweep and use-count deviations (claims C3 and C4) -/

/-- Claim C3 fails on the code: at cutoff `1`, the Idle entry `"a"` with
`requests = 1` (a positive use count) is expire-listed and deleted rather
than refreshed, and the refresh-listed entry `"b"` (`requests = 2`) keeps
status `nonePending` — the `status = refreshQueued` write of line 196 sits
on the expire branch, not the refresh branch. -/
theorem c3_sweep_code_behavior :
    sweepExpire
        [("a", { names := [], err := none, status := cacheEntryStatus.nonePending,
                 requests := 1, lastRefresh := 0 }),
         ("b", { names := [], err := none, status := cacheEntryStatus.nonePending,
                 requests := 2, lastRefresh := 0 })] 1 = ["a"]
    ∧ sweepRefresh
        [("a", { names := [], err := none, status := cacheEntryStatus.nonePending,
                 requests := 1, lastRefresh := 0 }),
         ("b", { names := [], err := none, status := cacheEntryStatus.nonePending,
                 requests := 2, lastRefresh := 0 })] 1 = ["b"]
    ∧ cacheGet (sweep
        [("a", { names := [], err := none, status := cacheEntryStatus.nonePending,
                 requests := 1, lastRefresh := 0 }),
         ("b", { names := [], err := none, status := cacheEntryStatus.nonePending,
                 requests := 2, lastRefresh := 0 })] 1) "a" = none
    ∧ cacheGet (sweep
        [("a", { names := [], err := none, status := cacheEntryStatus.nonePending,
                 requests := 1, lastRefresh := 0 }),
         ("b", { names := [], err := none, status := cacheEntryStatus.nonePending,
                 requests := 2, lastRefresh := 0 })] 1) "b" =
      some { names := [], err := none, status := cacheEntryStatus.nonePending,
             requests := 2, lastRefresh := 0 } := by
  refine ⟨?_, ?_, ?_, ?_⟩ <;> rfl

/-- Claim C4 fails on the code: a `LookupAddr` hit on an Idle entry leaves
the whole store — in particular the entry's `requests` counter — exactly
as it was (only `hits` moves); nothing in the program ever increments
`requests`. -/
theorem c4_lookup_code_behavior :
    (LookupAddr
        { cache := [("k", { names := ["h."], err := none,
                            status := cacheEntryStatus.nonePending,
                            requests := 0, lastRefresh := 5 })],
          queue := [], hits := 0, misses := 0 } "k").2.cache
      = [("k", { names := ["h."], err := none, status := cacheEntryStatus.nonePending,
                 requests := 0, lastRefresh := 5 })]
    ∧ (LookupAddr
        { cache := [("k", { names := ["h."], err := none,
                            status := cacheEntryStatus.nonePending,
                            requests := 0, lastRefresh := 5 })],
          queue := [], hits := 0, misses := 0 } "k").2.hits = 1 := by
  exact ⟨rfl, rfl⟩

/-! ### Dispatcher FIFO order (claim C8) -/

theorem qmRun_fifo (evs : List QEvent) : ∀ q : List String, validTrace q evs = true →
    (qmRun q evs).2 = (q ++ enqueuedOf evs).take (deqCount evs)
    ∧ (qmRun q evs).1 = (q ++ enqueuedOf evs).drop (deqCount evs) := by
  induction evs with
  | nil =>
      intro q _
      simp [qmRun, enqueuedOf, deqCount]
  | cons ev rest ih =>
      intro q h
      cases ev with
      | querySize =>
          have h1 : validTrace q rest = true := h
          simpa [qmRun, enqueuedOf, deqCount, isDequeue] using ih q h1
      | enqueue a =>
          have h1 : validTrace (q ++ [a]) rest = true := h
          have := ih (q ++ [a]) h1
          simpa [qmRun, enqueuedOf, deqCount, isDequeue, List.append_assoc] using this
      | dequeue =>
          cases q with
          | nil => simp [validTrace] at h
          | cons b tl =>
              have h1 : validTrace tl rest = true := h
              have := ih tl h1
              simpa [qmRun, enqueuedOf, deqCount, isDequeue] using this

/-- Claim C8: run from the empty queue over any valid trace of serviced
`select` events, the keys handed to workers are exactly the first
`deqCount` enqueued keys in their arrival order, and the remaining queue
is the rest in order — enqueue appends at the tail, dequeue removes the
oldest, strictly FIFO.  Validity (`validTrace`) encodes line 150-155's
guard that the dequeue case is offered only while the queue is non-empty. -/
theorem c8_dispatcher_fifo (evs : List QEvent) (h : validTrace [] evs = true) :
    (qmRun [] evs).2 = (enqueuedOf evs).take (deqCount evs)
    ∧ (qmRun [] evs).1 = (enqueuedOf evs).drop (deqCount evs) := by
  simpa using qmRun_fifo evs [] h

/-- Witness for C8 on a concrete six-event trace. -/
theorem c8_dispatcher_fifo_witness :
    validTrace [] [QEvent.enqueue "a", QEvent.enqueue "b", QEvent.dequeue,
      QEvent.querySize, QEvent.enqueue "c", QEvent.dequeue] = true
    ∧ ((qmRun [] [QEvent.enqueue "a", QEvent.enqueue "b", QEvent.dequeue,
          QEvent.querySize, QEvent.enqueue "c", QEvent.dequeue]).2 =
        (enqueuedOf [QEvent.enqueue "a", QEvent.enqueue "b", QEvent.dequeue,
          QEvent.querySize, QEvent.enqueue "c", QEvent.dequeue]).take
          (deqCount [QEvent.enqueue "a", QEvent.enqueue "b", QEvent.dequeue,
            QEvent.querySize, QEvent.enqueue "c", QEvent.dequeue])
      ∧ (qmRun [] [QEvent.enqueue "a", QEvent.enqueue "b", QEvent.dequeue,
          QEvent.querySize, QEvent.enqueue "c", QEvent.dequeue]).1 =
        (enqueuedOf [QEvent.enqueue "a", QEvent.enqueue "b", QEvent.dequeue,
          QEvent.querySize, QEvent.enqueue "c", QEvent.dequeue]).drop
          (deqCount [QEvent.enqueue "a", QEvent.enqueue "b", QEvent.dequeue,
            QEvent.querySize, QEvent.enqueue "c", QEvent.dequeue])) :=
  ⟨rfl, c8_dispatcher_fifo [QEvent.enqueue "a", QEvent.enqueue "b", QEvent.dequeue,
    QEvent.querySize, QEvent.enqueue "c", QEvent.dequeue] rfl⟩

/-! ### The inductive invariant of the running system -/

theorem LookupAddr_state_of_get (s : CRState) (addr : String) (e : cacheEntry)
    (h : cacheGet s.cache addr = some e) :
    (LookupAddr s addr).2.cache = s.cache ∧ (LookupAddr s addr).2.queue = s.queue := by
  rw [LookupAddr_of_get s addr e h]
  by_cases hst : e.status = cacheEntryStatus.nonePending <;> simp [hst]

theorem holdersCount_le_one {n : Nat} (s : SysState n)
    (h : ∀ (w1 w2 : Fin n) (a : String), s.workers w1 = WStatus.holding a →
      s.workers w2 = WStatus.holding a → w1 = w2) (a : String) :
    holdersCount s a ≤ 1 := by
  refine Finset.card_le_one.mpr ?_
  intro w1 h1 w2 h2
  rw [Finset.mem_filter] at h1 h2
  exact h w1 w2 a h1.2 h2.2

theorem sysInv_init (n : Nat) : SysInv (initState n) := by
  constructor
  · simp [initState]
  · intro w a hw
    simp [initState] at hw
  · intro w1 w2 a h1 h2
    simp [initState] at h1
  · intro p hp
    simp [initState] at hp
  · rfl
  · simp [initState]
  · intro w1 w2 a h1 h2
    simp [initState] at h1
  · intro a w hw
    simp [initState] at hw
  · intro a hmem
    simp [initState] at hmem

theorem sysInv_lookup {n : Nat} (s : SysState n) (addr : String) (hs : SysInv s) :
    SysInv { s with cr := (LookupAddr s.cr addr).2 } := by
  cases hget : cacheGet s.cr.cache addr with
  | some e =>
      obtain ⟨hc, hq⟩ := LookupAddr_state_of_get s.cr addr e hget
      constructor
      · dsimp only
        rw [hc]
        exact hs.keysNodup
      · intro w a hw1
        dsimp only
        rw [hc]
        exact hs.holdInProg w a hw1
      · exact hs.holdUnique
      · dsimp only
        intro p hp
        rw [hc] at hp
        exact hs.reqZero p hp
      · exact hs.pendNil
      · dsimp only
        rw [hq]
        exact hs.queueNodup
      · exact hs.pendUnique
      · intro a w hw1
        dsimp only
        rw [hq]
        exact hs.pendNotQueued a w hw1
      · intro a hmem
        dsimp only at hmem ⊢
        rw [hc]
        rw [hq] at hmem
        exact hs.queuedStatus a hmem
  | none =>
      have h2 : (LookupAddr s.cr addr).2 =
          { s.cr with cache := cacheSet s.cr.cache addr pendingEntry,
                      queue := s.cr.queue ++ [addr], misses := s.cr.misses + 1 } := by
        rw [LookupAddr_of_none s.cr addr hget]
      have haddrq : addr ∉ s.cr.queue := by
        intro hmem
        rcases hs.queuedStatus addr (Or.inl hmem) with ⟨e, he, _⟩
        rw [hget] at he
        cases he
      constructor
      · dsimp only
        rw [h2]
        exact keys_nodup_cacheSet _ _ _ hs.keysNodup
      · intro w a hw1
        dsimp only
        rw [h2]
        dsimp only
        rcases hs.holdInProg w a hw1 with ⟨e, he, hst⟩
        have hne : addr ≠ a := by
          rintro rfl
          rw [hget] at he
          cases he
        rw [cacheGet_cacheSet_ne _ _ _ _ hne]
        exact ⟨e, he, hst⟩
      · exact hs.holdUnique
      · dsimp only
        intro p hp
        rw [h2] at hp
        dsimp only at hp
        rcases mem_cacheSet _ _ _ _ hp with h1 | h1
        · exact hs.reqZero p h1
        · rw [h1]
          rfl
      · exact hs.pendNil
      · dsimp only
        rw [h2]
        dsimp only
        rw [List.nodup_append]
        refine ⟨hs.queueNodup, List.nodup_singleton addr, ?_⟩
        intro x hx hx2
        rw [List.mem_singleton] at hx2
        subst hx2
        exact haddrq hx
      · exact hs.pendUnique
      · intro a w hw1
        dsimp only
        rw [h2]
        dsimp only
        have h3 := hs.pendNotQueued a w hw1
        have hne : a ≠ addr := by
          rintro rfl
          rcases hs.queuedStatus a (Or.inr ⟨w, hw1⟩) with ⟨e, he, _⟩
          rw [hget] at he
          cases he
        simp [List.mem_append, h3, hne]
      · intro a hmem
        dsimp only at hmem ⊢
        rw [h2] at hmem ⊢
        dsimp only at hmem ⊢
        by_cases hne : a = addr
        · subst hne
          rw [cacheGet_cacheSet_self]
          exact ⟨pendingEntry, rfl, rfl⟩
        · rw [cacheGet_cacheSet_ne _ _ _ _ (Ne.symm hne)]
          apply hs.queuedStatus a
          rcases hmem with hmem | hmem
          · rcases List.mem_append.mp hmem with h4 | h4
            · exact Or.inl h4
            · rw [List.mem_singleton] at h4
              exact absurd h4 hne
          · exact Or.inr hmem

theorem sysInv_sweep {n : Nat} (s : SysState n) (cutoff : Int) (hs : SysInv s) :
    SysInv { s with cr := { s.cr with cache := sweep s.cr.cache cutoff },
                    pendRefresh := sweepRefresh s.cr.cache cutoff } := by
  constructor
  · dsimp only
    exact keys_nodup_sweep _ _ hs.keysNodup
  · intro w a hw1
    dsimp only
    rcases hs.holdInProg w a hw1 with ⟨e, he, hst⟩
    refine ⟨e, ?_, hst⟩
    refine cacheGet_sweep_of_not_idle _ _ _ _ hs.keysNodup he ?_
    rw [hst]
    decide
  · exact hs.holdUnique
  · dsimp only
    exact requests_sweep _ _ hs.reqZero
  · dsimp only
    exact sweepRefresh_eq_nil _ _ hs.reqZero
  · exact hs.queueNodup
  · exact hs.pendUnique
  · exact hs.pendNotQueued
  · intro a hmem
    dsimp only at hmem ⊢
    rcases hs.queuedStatus a hmem with ⟨e, he, hst⟩
    refine ⟨e, ?_, hst⟩
    refine cacheGet_sweep_of_not_idle _ _ _ _ hs.keysNodup he ?_
    rw [hst]
    decide

theorem sysInv_dequeue {n : Nat} (s : SysState n) (w : Fin n) (a : String)
    (rest : List String) (hq : s.cr.queue = a :: rest) (hs : SysInv s) :
    SysInv { s with cr := { s.cr with queue := rest },
                    workers := Function.update s.workers w (WStatus.pending a) } := by
  have hnd : (a :: rest).Nodup := by
    rw [← hq]
    exact hs.queueNodup
  have hanotr : a ∉ rest := (List.nodup_cons.mp hnd).1
  constructor
  · exact hs.keysNodup
  · intro w' b hw1
    dsimp only at hw1 ⊢
    by_cases hww : w' = w
    · subst hww
      rw [Function.update_same] at hw1
      simp at hw1
    · rw [Function.update_noteq hww] at hw1
      exact hs.holdInProg w' b hw1
  · intro w1 w2 b h1 h2
    dsimp only at h1 h2
    by_cases h1w : w1 = w
    · subst h1w
      rw [Function.update_same] at h1
      simp at h1
    · by_cases h2w : w2 = w
      · subst h2w
        rw [Function.update_same] at h2
        simp at h2
      · rw [Function.update_noteq h1w] at h1
        rw [Function.update_noteq h2w] at h2
        exact hs.holdUnique w1 w2 b h1 h2
  · exact hs.reqZero
  · exact hs.pendNil
  · dsimp only
    exact (List.nodup_cons.mp hnd).2
  · intro w1 w2 b h1 h2
    dsimp only at h1 h2
    by_cases h1w : w1 = w
    · by_cases h2w : w2 = w
      · rw [h1w, h2w]
      · subst h1w
        rw [Function.update_same] at h1
        injection h1 with hab
        subst hab
        rw [Function.update_noteq h2w] at h2
        exfalso
        apply hs.pendNotQueued a w2 h2
        rw [hq]
        exact List.mem_cons_self a rest
    · by_cases h2w : w2 = w
      · subst h2w
        rw [Function.update_same] at h2
        injection h2 with hab
        subst hab
        rw [Function.update_noteq h1w] at h1
        exfalso
        apply hs.pendNotQueued a w1 h1
        rw [hq]
        exact List.mem_cons_self a rest
      · rw [Function.update_noteq h1w] at h1
        rw [Function.update_noteq h2w] at h2
        exact hs.pendUnique w1 w2 b h1 h2
  · intro b w' hw1
    dsimp only at hw1 ⊢
    by_cases hww : w' = w
    · subst hww
      rw [Function.update_same] at hw1
      injection hw1 with hab
      subst hab
      exact hanotr
    · rw [Function.update_noteq hww] at hw1
      have h3 := hs.pendNotQueued b w' hw1
      rw [hq] at h3
      exact fun hmem => h3 (List.mem_cons_of_mem a hmem)
  · intro b hmem
    dsimp only at hmem ⊢
    rcases hmem with hmem | ⟨w', hw1⟩
    · apply hs.queuedStatus b
      left
      rw [hq]
      exact List.mem_cons_of_mem a hmem
    · by_cases hww : w' = w
      · subst hww
        rw [Function.update_same] at hw1
        injection hw1 with hab
        subst hab
        apply hs.queuedStatus a
        left
        rw [hq]
        exact List.mem_cons_self a rest
      · rw [Function.update_noteq hww] at hw1
        exact hs.queuedStatus b (Or.inr ⟨w', hw1⟩)

theorem sysInv_claim {n : Nat} (s : SysState n) (w : Fin n) (a : String)
    (hw : s.workers w = WStatus.pending a) (hs : SysInv s) :
    SysInv { s with cr := { s.cr with cache := (tryClaim s.cr.cache a).1 },
                    workers := Function.update s.workers w
                      (if (tryClaim s.cr.cache a).2 then WStatus.idle
                       else WStatus.holding a) } := by
  rcases hs.queuedStatus a (Or.inr ⟨w, hw⟩) with ⟨e, he, hst⟩
  have htc := tryClaim_of_queued s.cr.cache a e he hst
  have hanq : a ∉ s.cr.queue := hs.pendNotQueued a w hw
  have hc' : (tryClaim s.cr.cache a).1 =
      cacheSet s.cr.cache a { e with status := .refreshInProgress } := by
    rw [htc]
  have hw' : Function.update s.workers w
      (if (tryClaim s.cr.cache a).2 then WStatus.idle else WStatus.holding a)
      = Function.update s.workers w (WStatus.holding a) := by
    rw [htc]
    simp
  rw [hc', hw']
  constructor
  · dsimp only
    exact keys_nodup_cacheSet _ _ _ hs.keysNodup
  · intro w' b hw1
    dsimp only at hw1 ⊢
    by_cases hww : w' = w
    · subst hww
      rw [Function.update_same] at hw1
      injection hw1 with hab
      subst hab
      exact ⟨{ e with status := .refreshInProgress }, cacheGet_cacheSet_self _ _ _, rfl⟩
    · rw [Function.update_noteq hww] at hw1
      rcases hs.holdInProg w' b hw1 with ⟨e1, he1, hst1⟩
      have hba : b ≠ a := by
        rintro rfl
        rw [he] at he1
        injection he1 with h5
        rw [← h5, hst] at hst1
        exact absurd hst1 (by decide)
      refine ⟨e1, ?_, hst1⟩
      rw [cacheGet_cacheSet_ne _ _ _ _ (Ne.symm hba)]
      exact he1
  · intro w1 w2 b h1 h2
    dsimp only at h1 h2
    by_cases h1w : w1 = w
    · by_cases h2w : w2 = w
      · rw [h1w, h2w]
      · subst h1w
        rw [Function.update_same] at h1
        injection h1 with hab
        subst hab
        rw [Function.update_noteq h2w] at h2
        exfalso
        rcases hs.holdInProg w2 a h2 with ⟨e1, he1, hst1⟩
        rw [he] at he1
        injection he1 with h5
        rw [← h5, hst] at hst1
        exact absurd hst1 (by decide)
    · by_cases h2w : w2 = w
      · subst h2w
        rw [Function.update_same] at h2
        injection h2 with hab
        subst hab
        rw [Function.update_noteq h1w] at h1
        exfalso
        rcases hs.holdInProg w1 a h1 with ⟨e1, he1, hst1⟩
        rw [he] at he1
        injection he1 with h5
        rw [← h5, hst] at hst1
        exact absurd hst1 (by decide)
      · rw [Function.update_noteq h1w] at h1
        rw [Function.update_noteq h2w] at h2
        exact hs.holdUnique w1 w2 b h1 h2
  · dsimp only
    intro p hp
    rcases mem_cacheSet _ _ _ _ hp with h1 | h1
    · exact hs.reqZero p h1
    · have h6 := hs.reqZero (a, e) (mem_of_cacheGet _ _ _ he)
      rw [h1]
      exact h6
  · exact hs.pendNil
  · exact hs.queueNodup
  · intro w1 w2 b h1 h2
    dsimp only at h1 h2
    by_cases h1w : w1 = w
    · subst h1w
      rw [Function.update_same] at h1
      simp at h1
    · by_cases h2w : w2 = w
      · subst h2w
        rw [Function.update_same] at h2
        simp at h2
      · rw [Function.update_noteq h1w] at h1
        rw [Function.update_noteq h2w] at h2
        exact hs.pendUnique w1 w2 b h1 h2
  · intro b w' hw1
    dsimp only at hw1 ⊢
    by_cases hww : w' = w
    · subst hww
      rw [Function.update_same] at hw1
      simp at hw1
    · rw [Function.update_noteq hww] at hw1
      exact hs.pendNotQueued b w' hw1
  · intro b hmem
    dsimp only at hmem ⊢
    rcases hmem with hmem | ⟨w', hw1⟩
    · have hba : b ≠ a := by
        rintro rfl
        exact hanq hmem
      rcases hs.queuedStatus b (Or.inl hmem) with ⟨e1, he1, hst1⟩
      refine ⟨e1, ?_, hst1⟩
      rw [cacheGet_cacheSet_ne _ _ _ _ (Ne.symm hba)]
      exact he1
    · by_cases hww : w' = w
      · subst hww
        rw [Function.update_same] at hw1
        simp at hw1
      · rw [Function.update_noteq hww] at hw1
        have hba : b ≠ a := by
          rintro rfl
          exact hww (hs.pendUnique w' w b hw1 hw)
        rcases hs.queuedStatus b (Or.inr ⟨w', hw1⟩) with ⟨e1, he1, hst1⟩
        refine ⟨e1, ?_, hst1⟩
        rw [cacheGet_cacheSet_ne _ _ _ _ (Ne.symm hba)]
        exact he1

theorem sysInv_commit {n : Nat} (s : SysState n) (w : Fin n) (a : String)
    (names : List String) (err : Option GoError) (now : Int)
    (hw : s.workers w = WStatus.holding a) (hs : SysInv s) :
    SysInv { s with cr := { s.cr with cache := commit s.cr.cache a names err now },
                    workers := Function.update s.workers w WStatus.idle } := by
  constructor
  · dsimp only
    exact keys_nodup_commit _ _ _ _ _ hs.keysNodup
  · intro w' b hw1
    dsimp only at hw1 ⊢
    by_cases hww : w' = w
    · subst hww
      rw [Function.update_same] at hw1
      simp at hw1
    · rw [Function.update_noteq hww] at hw1
      have hba : b ≠ a := by
        rintro rfl
        exact hww (hs.holdUnique w' w b hw1 hw)
      rcases hs.holdInProg w' b hw1 with ⟨e1, he1, hst1⟩
      refine ⟨e1, ?_, hst1⟩
      rw [cacheGet_commit_ne _ _ _ _ _ _ hba]
      exact he1
  · intro w1 w2 b h1 h2
    dsimp only at h1 h2
    by_cases h1w : w1 = w
    · subst h1w
      rw [Function.update_same] at h1
      simp at h1
    · by_cases h2w : w2 = w
      · subst h2w
        rw [Function.update_same] at h2
        simp at h2
      · rw [Function.update_noteq h1w] at h1
        rw [Function.update_noteq h2w] at h2
        exact hs.holdUnique w1 w2 b h1 h2
  · dsimp only
    exact requests_commit _ _ _ _ _ hs.reqZero
  · exact hs.pendNil
  · exact hs.queueNodup
  · intro w1 w2 b h1 h2
    dsimp only at h1 h2
    by_cases h1w : w1 = w
    · subst h1w
      rw [Function.update_same] at h1
      simp at h1
    · by_cases h2w : w2 = w
      · subst h2w
        rw [Function.update_same] at h2
        simp at h2
      · rw [Function.update_noteq h1w] at h1
        rw [Function.update_noteq h2w] at h2
        exact hs.pendUnique w1 w2 b h1 h2
  · intro b w' hw1
    dsimp only at hw1 ⊢
    by_cases hww : w' = w
    · subst hww
      rw [Function.update_same] at hw1
      simp at hw1
    · rw [Function.update_noteq hww] at hw1
      exact hs.pendNotQueued b w' hw1
  · intro b hmem
    dsimp only at hmem ⊢
    have hsrc : b ∈ s.cr.queue ∨ ∃ w2 : Fin n, s.workers w2 = WStatus.pending b := by
      rcases hmem with hmem | ⟨w', hw1⟩
      · exact Or.inl hmem
      · by_cases hww : w' = w
        · subst hww
          rw [Function.update_same] at hw1
          simp at hw1
        · rw [Function.update_noteq hww] at hw1
          exact Or.inr ⟨w', hw1⟩
    rcases hs.queuedStatus b hsrc with ⟨e1, he1, hst1⟩
    have hba : b ≠ a := by
      rintro rfl
      rcases hs.holdInProg w b hw with ⟨e2, he2, hst2⟩
      rw [he1] at he2
      injection he2 with h5
      rw [← h5, hst1] at hst2
      exact absurd hst2 (by decide)
    refine ⟨e1, ?_, hst1⟩
    rw [cacheGet_commit_ne _ _ _ _ _ _ hba]
    exact he1

theorem sysInv_step {n : Nat} {s s' : SysState n} (hs : SysInv s) (hstep : Step s s') :
    SysInv s' := by
  cases hstep with
  | lookup addr => exact sysInv_lookup _ addr hs
  | sweepRun cutoff hp => exact sysInv_sweep _ cutoff hs
  | purgeEnq a rest hp =>
      rw [hs.pendNil] at hp
      simp at hp
  | dequeue w a rest hq hw => exact sysInv_dequeue _ w a rest hq hs
  | claim w a hw => exact sysInv_claim _ w a hw hs
  | commitRun w a names err now hw => exact sysInv_commit _ w a names err now hw hs

theorem reachable_sysInv {n : Nat} {s : SysState n} (hr : Reachable s) : SysInv s := by
  induction hr with
  | init => exact sysInv_init n
  | step hr1 hstep ih => exact sysInv_step ih hstep

/-! ### Claims C1 and C2: the state machine over all executions -/

/-- Claim C1: along every step out of a reachable state, each entry's
status either stays put or follows the cycle
Idle → RefreshQueued → RefreshInProgress → Idle; at most one worker is
mid-resolution on any given key; the claim section succeeds exactly when
the status is `refreshQueued` (on failure `skipLookup` stays true and the
worker skips the resolution), and a successful claim atomically writes
`refreshInProgress`. -/
theorem c1_claim_protocol {n : Nat} (s s' : SysState n) (hr : Reachable s)
    (hstep : Step s s') :
    (∀ (b : String) (e e' : cacheEntry), cacheGet s.cr.cache b = some e →
        cacheGet s'.cr.cache b = some e' → allowedTransition e.status e'.status)
    ∧ (∀ b : String, holdersCount s b ≤ 1)
    ∧ (∀ b : String, ((tryClaim s.cr.cache b).2 = false ↔
          ∃ e, cacheGet s.cr.cache b = some e ∧
            e.status = cacheEntryStatus.refreshQueued))
    ∧ (∀ (b : String) (e : cacheEntry), cacheGet s.cr.cache b = some e →
          e.status = cacheEntryStatus.refreshQueued →
          cacheGet (tryClaim s.cr.cache b).1 b =
            some { e with status := cacheEntryStatus.refreshInProgress }) := by
  have hs := reachable_sysInv hr
  refine ⟨?_, ?_, ?_, ?_⟩
  · intro b e e' hget hget'
    cases hstep with
    | lookup addr =>
        cases haddr : cacheGet s.cr.cache addr with
        | some e0 =>
            obtain ⟨hc, hq⟩ := LookupAddr_state_of_get s.cr addr e0 haddr
            dsimp only at hget'
            rw [hc, hget] at hget'
            injection hget' with h1
            rw [h1]
            left
            rfl
        | none =>
            have h2 : (LookupAddr s.cr addr).2 =
                { s.cr with cache := cacheSet s.cr.cache addr pendingEntry,
                            queue := s.cr.queue ++ [addr],
                            misses := s.cr.misses + 1 } := by
              rw [LookupAddr_of_none s.cr addr haddr]
            dsimp only at hget'
            rw [h2] at hget'
            dsimp only at hget'
            by_cases hba : b = addr
            · subst hba
              rw [haddr] at hget
              cases hget
            · rw [cacheGet_cacheSet_ne _ _ _ _ (Ne.symm hba), hget] at hget'
              injection hget' with h1
              rw [h1]
              left
              rfl
    | sweepRun cutoff hp =>
        dsimp only at hget'
        rw [cacheGet_sweep] at hget'
        by_cases hmem : b ∈ sweepExpire s.cr.cache cutoff
        · rw [if_pos hmem] at hget'
          cases hget'
        · rw [if_neg hmem, hget] at hget'
          simp only [Option.map_some'] at hget'
          injection hget' with h1
          rw [← h1]
          unfold markEntry
          by_cases hf : sweepFlag e cutoff
          · rw [if_pos hf]
            right
            left
            exact ⟨sweepFlag_status e cutoff hf, rfl⟩
          · rw [if_neg hf]
            left
            rfl
    | purgeEnq a rest hp =>
        dsimp only at hget'
        rw [hget] at hget'
        injection hget' with h1
        rw [h1]
        left
        rfl
    | dequeue w a rest hq hw =>
        dsimp only at hget'
        rw [hget] at hget'
        injection hget' with h1
        rw [h1]
        left
        rfl
    | claim w a hw =>
        rcases hs.queuedStatus a (Or.inr ⟨w, hw⟩) with ⟨e0, he0, hst0⟩
        have htc := tryClaim_of_queued s.cr.cache a e0 he0 hst0
        dsimp only at hget'
        rw [htc] at hget'
        dsimp only at hget'
        by_cases hba : b = a
        · subst hba
          rw [cacheGet_cacheSet_self] at hget'
          injection hget' with h1
          rw [hget] at he0
          injection he0 with h2
          rw [← h1, ← h2]
          right
          right
          left
          refine ⟨?_, rfl⟩
          rw [h2]
          exact hst0
        · rw [cacheGet_cacheSet_ne _ _ _ _ (Ne.symm hba), hget] at hget'
          injection hget' with h1
          rw [h1]
          left
          rfl
    | commitRun w a names err now hw =>
        dsimp only at hget'
        by_cases hba : b = a
        · subst hba
          rw [cacheGet_commit_self] at hget'
          injection hget' with h1
          rcases hs.holdInProg w b hw with ⟨e2, he2, hst2⟩
          rw [hget] at he2
          injection he2 with h2
          rw [← h1]
          right
          right
          right
          refine ⟨?_, rfl⟩
          rw [h2]
          exact hst2
        · rw [cacheGet_commit_ne _ _ _ _ _ _ hba, hget] at hget'
          injection hget' with h1
          rw [h1]
          left
          rfl
  · exact fun b => holdersCount_le_one s hs.holdUnique b
  · intro b
    cases hg : cacheGet s.cr.cache b with
    | none =>
        rw [tryClaim_of_none s.cr.cache b hg]
        constructor
        · intro h1
          simp at h1
        · rintro ⟨e, he, _⟩
          cases he
    | some e =>
        by_cases hst : e.status = cacheEntryStatus.refreshQueued
        · rw [tryClaim_of_queued s.cr.cache b e hg hst]
          exact ⟨fun _ => ⟨e, rfl, hst⟩, fun _ => rfl⟩
        · rw [tryClaim_of_other s.cr.cache b e hg hst]
          constructor
          · intro h1
            simp at h1
          · rintro ⟨e1, he1, hst1⟩
            injection he1 with h2
            rw [← h2] at hst1
            exact absurd hst1 hst
  · intro b e hget hst
    rw [tryClaim_of_queued s.cr.cache b e hget hst]
    exact cacheGet_cacheSet_self _ _ _

/-- Witness for C1: the first lookup step out of the started one-worker
system. -/
theorem c1_claim_protocol_witness :
    Reachable (initState 1)
    ∧ Step (initState 1) { initState 1 with cr := (LookupAddr (initState 1).cr "a").2 }
    ∧ ((∀ (b : String) (e e' : cacheEntry), cacheGet (initState 1).cr.cache b = some e →
          cacheGet ({ initState 1 with
              cr := (LookupAddr (initState 1).cr "a").2 } : SysState 1).cr.cache b = some e' →
          allowedTransition e.status e'.status)
      ∧ (∀ b : String, holdersCount (initState 1) b ≤ 1)
      ∧ (∀ b : String, ((tryClaim (initState 1).cr.cache b).2 = false ↔
            ∃ e, cacheGet (initState 1).cr.cache b = some e ∧
              e.status = cacheEntryStatus.refreshQueued))
      ∧ (∀ (b : String) (e : cacheEntry), cacheGet (initState 1).cr.cache b = some e →
            e.status = cacheEntryStatus.refreshQueued →
            cacheGet (tryClaim (initState 1).cr.cache b).1 b =
              some { e with status := cacheEntryStatus.refreshInProgress })) :=
  ⟨Reachable.init, Step.lookup (initState 1) "a",
    c1_claim_protocol (initState 1) _ Reachable.init (Step.lookup (initState 1) "a")⟩

/-- Claim C2: out of any reachable state, a step that appends a key to the
dispatcher queue is exactly a first-miss `LookupAddr` creating that key's
entry with status `refreshQueued` in the same atomic step (the key was
absent before), and the queue never holds a key twice.  The purger's
refresh branch never enqueues: `requests` is never incremented, so its
refresh list is always empty. -/
theorem c2_enqueue_only_on_creation {n : Nat} (s s' : SysState n) (hr : Reachable s)
    (hstep : Step s s') :
    (∀ k : String, s'.cr.queue = s.cr.queue ++ [k] →
        cacheGet s.cr.cache k = none
        ∧ ∃ e, cacheGet s'.cr.cache k = some e ∧
            e.status = cacheEntryStatus.refreshQueued)
    ∧ (∀ k : String, s'.cr.queue.count k ≤ 1) := by
  have hs := reachable_sysInv hr
  have hs' := sysInv_step hs hstep
  constructor
  · intro k hk
    cases hstep with
    | lookup addr =>
        cases haddr : cacheGet s.cr.cache addr with
        | some e0 =>
            obtain ⟨hc, hq⟩ := LookupAddr_state_of_get s.cr addr e0 haddr
            dsimp only at hk
            rw [hq] at hk
            exfalso
            have := congrArg List.length hk
            simp at this
        | none =>
            have h2 : (LookupAddr s.cr addr).2 =
                { s.cr with cache := cacheSet s.cr.cache addr pendingEntry,
                            queue := s.cr.queue ++ [addr],
                            misses := s.cr.misses + 1 } := by
              rw [LookupAddr_of_none s.cr addr haddr]
            dsimp only at hk
            rw [h2] at hk
            dsimp only at hk
            have h3 := List.append_cancel_left hk
            have hak : addr = k := by
              injection h3
            subst hak
            refine ⟨haddr, pendingEntry, ?_, rfl⟩
            dsimp only
            rw [h2]
            exact cacheGet_cacheSet_self _ _ _
    | sweepRun cutoff hp =>
        dsimp only at hk
        exfalso
        have := congrArg List.length hk
        simp at this
    | purgeEnq a rest hp =>
        exfalso
        rw [hs.pendNil] at hp
        cases hp
    | dequeue w a rest hq hw =>
        dsimp only at hk
        exfalso
        rw [hq] at hk
        have := congrArg List.length hk
        simp at this
        omega
    | claim w a hw =>
        dsimp only at hk
        exfalso
        have := congrArg List.length hk
        simp at this
    | commitRun w a names err now hw =>
        dsimp only at hk
        exfalso
        have := congrArg List.length hk
        simp at this
  · intro k
    exact List.nodup_iff_count_le_one.mp hs'.queueNodup k

/-- Witness for C2: the first lookup step out of the started one-worker
system, key `"b"`. -/
theorem c2_enqueue_only_on_creation_witness :
    Reachable (initState 1)
    ∧ Step (initState 1) { initState 1 with cr := (LookupAddr (initState 1).cr "b").2 }
    ∧ ((∀ k : String,
          ({ initState 1 with
              cr := (LookupAddr (initState 1).cr "b").2 } : SysState 1).cr.queue =
            (initState 1).cr.queue ++ [k] →
          cacheGet (initState 1).cr.cache k = none
          ∧ ∃ e, cacheGet ({ initState 1 with
                cr := (LookupAddr (initState 1).cr "b").2 } : SysState 1).cr.cache k = some e ∧
              e.status = cacheEntryStatus.refreshQueued)
      ∧ (∀ k : String,
          ({ initState 1 with
              cr := (LookupAddr (initState 1).cr "b").2 } : SysState 1).cr.queue.count k ≤ 1)) :=
  ⟨Reachable.init, Step.lookup (initState 1) "b",
    c2_enqueue_only_on_creation (initState 1) _ Reachable.init (Step.lookup (initState 1) "b")⟩

end DnsCache
